import Mathlib

/-!
# The cache benchmark harness (`benchmark.cc`)

A shallow embedding of the workload generator and measurement harness of
`benchmark.cc`, and the properties of it that the specification states.

Modelling conventions.

* A finite `double` is the rational number it holds (`ℚ`).  The arithmetic of
  the mean and of the throughput is binary64 arithmetic: every sum and every
  quotient is rounded by `round64` (to nearest, ties to even, with subnormal
  numbers and overflow), and a result that is not finite is an infinity or a
  NaN of the type `Double`.  The index `nineFive` is computed exactly;
  `nineFiveBinary64_eq` shows that its evaluation in binary64 gives the same
  value for every vector of fewer than `2 ^ 48` elements.  The conversion of a
  clock difference to milliseconds (`time`) is exact.
* Clock readings are integer tick counts in nanoseconds.
* Everything the harness does not control is an input of the model: the values
  drawn from the random engine, the outcome of each call to the cache, the
  clock readings around a call, and the order in which the worker threads take
  the mutex.
* The cache (`cache.hh`) is an external collaborator.  A call to it returns,
  throws an object of a class derived from `std::exception`, or throws an
  object of another type (`Thrown`).  The connection made by the constructor
  of `Workload` and the allocations are taken to succeed.
* An operation whose behaviour C++ leaves undefined is an `Except.error`.
* Diagnostic output to `std::cerr` and `std::cout` is not modelled.
-/

namespace Benchmark

/-! ## Compile-time constants -/

/-- The macro `ITERS`. -/
def ITERS : Nat := 30000

/-- The macro `THREADS`. -/
def THREADS : Nat := 2

/-! ## Request mixture: the private generators of `Workload` -/

/-- The conversion `static_cast<ssize_t>(d)` of a `double`: the fractional part
is discarded (rounding toward zero). -/
def truncate (d : ℚ) : Int :=
  if 0 ≤ d then Int.floor d else Int.ceil d

/-- Method `rand_ssize`: the value drawn from `extreme`, converted to `ssize_t`. -/
def Workload.rand_ssize (draw : ℚ) : Int :=
  truncate draw

/-- Method `rand_size`: `static_cast<size_t>(std::abs(rand_ssize()))`. -/
def Workload.rand_size (draw : ℚ) : Nat :=
  (Workload.rand_ssize draw).natAbs

/-- Method `rand_size_long`: the value drawn from `extreme_long`, made
non-negative as a `double` and then converted to `size_t`. -/
def Workload.rand_size_long (draw : ℚ) : Nat :=
  (truncate |draw|).toNat

/-- The local `table` of `random_val`. -/
def Workload.table : List Char :=
  "ABCDEFGHIJKLMNOPQRSTUVWXYZabcdefghijklmnopqrstuvwxyz0123456789-_".toList

/-- Method `random_val`: `rand_size_long() + 1` characters, the `i`-th one being
`table[uniform(engine) % 64]` for the `i`-th value drawn from `uniform`. -/
def Workload.random_val (lenDraw : ℚ) (uniform : Nat → Nat) : String :=
  let len := Workload.rand_size_long lenDraw + 1
  String.mk ((List.range len).map (fun i => Workload.table.getD (uniform i % 64) 'A'))

/-- The call `std::to_string(v)` on a `ssize_t`: decimal digits, with a leading
minus sign for a negative value. -/
def to_string (v : Int) : String :=
  if v < 0 then "-" ++ Nat.repr v.natAbs else Nat.repr v.natAbs

/-! ## Timed operation executors -/

/-- What a call to the cache can throw. -/
inductive Thrown where
  /-- An object of a class derived from `std::exception`, with its `what()`. -/
  | stdException (what : String)
  /-- An object of any other type. -/
  | other
  deriving DecidableEq, Repr

/-- Static method `Workload::set`.  `call` is how `cachep->set(key, val)` ends:
`.ok ret` when it returns `ret`, `.error thrown` when it throws; `start` and
`stop` are the readings of `std::chrono::steady_clock::now()` before and after
it.  The handler is `catch (const std::exception &e)`: it takes a
`stdException` and nothing else. -/
def Workload.set (_key : String) (_data : String) (call : Except Thrown Bool)
    (start stop : Int) : Except Thrown Int := do
  let mut duration : Int := -1
  try
    let _ret ← call
    duration := stop - start
  catch thrown =>
    match thrown with
    | .stdException _e => pure ()
    | .other => throw Thrown.other
  return duration

/-- Static method `Workload::get`, the same around `cachep->get(key)`. -/
def Workload.get (_key : String) (call : Except Thrown Bool)
    (start stop : Int) : Except Thrown Int := do
  let mut duration : Int := -1
  try
    let _val ← call
    duration := stop - start
  catch thrown =>
    match thrown with
    | .stdException _e => pure ()
    | .other => throw Thrown.other
  return duration

/-- Static method `Workload::del`, the same around `cachep->del(key)`. -/
def Workload.del (_key : String) (call : Except Thrown Bool)
    (start stop : Int) : Except Thrown Int := do
  let mut duration : Int := -1
  try
    let _ ← call
    duration := stop - start
  catch thrown =>
    match thrown with
    | .stdException _e => pure ()
    | .other => throw Thrown.other
  return duration

/-! ## One request -/

/-- The three operations of the cache. -/
inductive Op where
  | get
  | set
  | del
  deriving DecidableEq, Repr

/-- A request as it reaches the cache. -/
structure Request where
  op : Op
  key : String
  /-- The payload of a `set`. -/
  value : Option String
  deriving DecidableEq, Repr

/-- Everything one call of `benchmark_request` takes from outside the harness. -/
structure RequestEnv where
  /-- The value drawn from `extreme` for the `switch`. -/
  kindDraw : ℚ
  /-- The value drawn from `extreme` for the key. -/
  keyDraw : ℚ
  /-- The value drawn from `extreme_long` for the length of the payload. -/
  lenDraw : ℚ
  /-- The values drawn from `uniform` for the characters of the payload. -/
  uniform : Nat → Nat
  /-- How the call to the cache ends: `.ok ret` when it returns (`ret` is the flag
  of `Cache::set`, unused otherwise), `.error thrown` when it throws. -/
  call : Except Thrown Bool
  /-- Reading of `steady_clock` before the call to the cache. -/
  steadyStart : Int
  /-- Reading of `steady_clock` after the call to the cache, when it returns. -/
  steadyEnd : Int
  /-- Reading of `high_resolution_clock` before `benchmark_request`. -/
  outerStart : Int
  /-- Reading of `high_resolution_clock` after `benchmark_request`. -/
  outerEnd : Int

/-- Method `Workload::benchmark_request`: the request it sends to the cache, and
the duration (nanoseconds) it returns or the object thrown that leaves it. -/
def Workload.benchmark_request (e : RequestEnv) : Request × Except Thrown Int :=
  match Workload.rand_size e.kindDraw % 3 with
  | 0 =>
    let key := to_string (Workload.rand_ssize e.keyDraw)
    (⟨.get, key, none⟩, Workload.get key e.call e.steadyStart e.steadyEnd)
  | 1 =>
    let key := to_string (Workload.rand_ssize e.keyDraw)
    let data := Workload.random_val e.lenDraw e.uniform
    (⟨.set, key, some data⟩, Workload.set key data e.call e.steadyStart e.steadyEnd)
  | _ =>
    let key := to_string (Workload.rand_ssize e.keyDraw)
    (⟨.del, key, none⟩, Workload.del key e.call e.steadyStart e.steadyEnd)

/-! ## The single-thread sampler `baseline_latencies` -/

/-- The loop `for (size_t i = 0; i < n; ++i) body`: the state after `n` rounds,
or the object thrown that left the loop. -/
def forLoop {σ : Type} (body : Nat → σ → Except Thrown σ) : Nat → σ → Except Thrown σ
  | 0, s => .ok s
  | n + 1, s => forLoop body n s >>= body n

/-- State of one run of `baseline_latencies`. -/
structure Sampler where
  /-- The calls of `benchmark_request` that returned so far, oldest first: the
  request sent and the duration returned. -/
  trace : List (Request × Int)
  /-- The vector `durations`. -/
  durations : List ℚ

/-- One statement `workload->benchmark_request();`: the request takes the next
entry of the environment, and the duration it returns is dropped. -/
def Sampler.request (env : Nat → RequestEnv) (s : Sampler) : Except Thrown Sampler := do
  let sent := (Workload.benchmark_request (env s.trace.length)).1
  let duration ← (Workload.benchmark_request (env s.trace.length)).2
  return { s with trace := s.trace ++ [(sent, duration)] }

/-- The value `time` of one round of the measured loop: `end - start` as
`std::chrono::duration<double>` (seconds), then as `millis`. -/
def time (e : RequestEnv) : ℚ :=
  let seconds : ℚ := ((e.outerEnd - e.outerStart : Int) : ℚ) / 1000000000
  seconds * 1000

/-- One round of the measured loop of `baseline_latencies`. -/
def measured (env : Nat → RequestEnv) (i : Nat) (s : Sampler) : Except Thrown Sampler := do
  let e := env s.trace.length
  let s ← s.request env
  return { s with durations := s.durations.set i (time e) }

/-- Function `baseline_latencies`; `env k` is the environment of the `k`-th
request of the thread, counted from 0. -/
def baseline_latencies (nreq : Nat) (env : Nat → RequestEnv) : Except Thrown Sampler := do
  let s : Sampler := { trace := [], durations := List.replicate nreq 0 }
  let s ← forLoop (fun _ s => s.request env) 256 s
  forLoop (measured env) nreq s

/-! ## Fan-out and fan-in: the first half of `threaded_performance` -/

/-- The lambda `threadFunction`, from the point of view of the shared vector:
the thread computes `baseline_latencies(nreq_split)` on its own, then appends the
result to `total_thread_output` while it holds the mutex. -/
def threadFunction (nreq_split : Nat) (env : Nat → RequestEnv)
    (total_thread_output : List ℚ) : Except Thrown (List ℚ) := do
  let thread_output ← baseline_latencies nreq_split env
  return total_thread_output ++ thread_output.durations

/-- The vector `total_thread_output` once every thread is joined, or the object
thrown that left a thread function.  `order` lists the threads in the order in
which they took the mutex and `envs t` is the environment of thread `t`. -/
def fanIn (nreq_split : Nat) (envs : Nat → Nat → RequestEnv) (order : List Nat) :
    Except Thrown (List ℚ) :=
  order.foldlM (fun total t => threadFunction nreq_split (envs t) total) []

/-! ## Binary64 arithmetic -/

/-- A value of type `double`: a finite number, an infinity or a NaN.  The sign of
a zero and of an infinity is not kept: no operation below depends on it. -/
inductive Double where
  | fin (value : ℚ)
  | inf
  | nan
  deriving DecidableEq

/-- Rounding to the nearest integer, to the even one of two at the same
distance. -/
def rne (q : ℚ) : Int :=
  let f := Int.floor q
  let r := q - f
  if r < 1 / 2 then f
  else if 1 / 2 < r then f + 1
  else if f % 2 = 0 then f else f + 1

/-- Rounding of an exact result to binary64: to the nearest multiple of
`2 ^ e`, where `e` leaves 53 significant bits and is at least `-1074` (the
subnormal numbers); a result of magnitude `2 ^ 1024` or more is an infinity. -/
def round64 (x : ℚ) : Double :=
  let e : Int := max (Int.log 2 |x| - 52) (-1074)
  let y : ℚ := (rne (x / 2 ^ e) : ℚ) * 2 ^ e
  if (2 : ℚ) ^ (1024 : Int) ≤ |y| then .inf else .fin y

/-- The statement `mean_latency += val` for a finite `val`. -/
def fadd (acc : Double) (val : ℚ) : Double :=
  match acc with
  | .fin a => round64 (a + val)
  | .inf => .inf
  | .nan => .nan

/-- The operator `/` on two `double`s. -/
def fdiv (a b : Double) : Double :=
  match a, b with
  | .nan, _ => .nan
  | _, .nan => .nan
  | .inf, .inf => .nan
  | .inf, .fin _ => .inf
  | .fin _, .inf => .fin 0
  | .fin x, .fin y =>
    if y = 0 then (if x = 0 then .nan else .inf) else round64 (x / y)

/-! ## Statistics: the second half of `threaded_performance` -/

/-- Points at which the C++ program has undefined behaviour. -/
inductive Undefined where
  /-- `v[index]` on a vector of `size` elements, with `index` outside `0 .. size - 1`. -/
  | vectorIndex (index : Int) (size : Nat)
  deriving DecidableEq, Repr

/-- What `threaded_performance` produces: the pair it returns and the lines it
writes to `latencies.tsv`. -/
structure Performance where
  /-- Field `ret.first`, the 95% latency. -/
  first : ℚ
  /-- Field `ret.second`, the throughput. -/
  second : Double
  /-- The values written to `latencies.tsv`, one per line, in order. -/
  sheet : List ℚ
  deriving DecidableEq

/-- The call `std::sort(latencies.begin(), latencies.end())`: the ascending
rearrangement of the values, which is unique (`sort_unique`); insertion sort
computes it. -/
def sort (latencies : List ℚ) : List ℚ :=
  latencies.insertionSort (· ≤ ·)

/-- The expression `std::ceil(95.0 / 100.0 * latencies.size()) - 1`. -/
def nineFive (size : Nat) : Int :=
  Int.ceil ((95 : ℚ) / 100 * (size : ℚ)) - 1

/-- The expression `latencies[nineFive]`: the index is converted to `size_t` and
the element is read without a bounds check. -/
def vectorAt (latencies : List ℚ) (index : Int) : Except Undefined ℚ :=
  if 0 ≤ index then
    match latencies.get? index.toNat with
    | some val => .ok val
    | none => .error (.vectorIndex index latencies.length)
  else .error (.vectorIndex index latencies.length)

/-- The accumulation `mean_latency += val` over the sorted values, from `0.0`,
followed by `mean_latency /= latencies.size()`, the size being converted to
`double`. -/
def mean_latency (latencies : List ℚ) : Double :=
  fdiv (latencies.foldl fadd (.fin 0)) (round64 (latencies.length : ℚ))

/-- The expression `1000 / mean_latency`. -/
def throughput (mean : Double) : Double :=
  fdiv (.fin 1000) mean

/-- The part of `threaded_performance` after the threads are joined: sort, read
the 95th percentile, write the sheet, compute mean and throughput. -/
def statistics (total_thread_output : List ℚ) : Except Undefined Performance :=
  let latencies := sort total_thread_output
  match vectorAt latencies (nineFive latencies.length) with
  | .error u => .error u
  | .ok nineFiveVal =>
    .ok { first := nineFiveVal
          second := throughput (mean_latency latencies)
          sheet := latencies }

/-- The ways in which a run of `threaded_performance` fails to return. -/
inductive Abort where
  /-- An object thrown leaves a thread function: `std::terminate`. -/
  | uncaught (thrown : Thrown)
  /-- The behaviour is undefined. -/
  | undefined (u : Undefined)
  deriving DecidableEq, Repr

/-- Function `threaded_performance` for `iters` iterations on `threads` threads. -/
def threaded_performance_with (iters threads : Nat) (envs : Nat → Nat → RequestEnv)
    (order : List Nat) : Except Abort Performance :=
  let nreq_split := iters / threads
  match fanIn nreq_split envs order with
  | .error thrown => .error (.uncaught thrown)
  | .ok total_thread_output =>
    match statistics total_thread_output with
    | .error u => .error (.undefined u)
    | .ok ret => .ok ret

/-- Function `threaded_performance` as compiled. -/
def threaded_performance (envs : Nat → Nat → RequestEnv) (order : List Nat) :
    Except Abort Performance :=
  threaded_performance_with ITERS THREADS envs order

/-! ## Auxiliary definitions for the statements below -/

/-- Whether the call to the cache throws an object that no handler of the
harness takes. -/
def RequestEnv.escapes (e : RequestEnv) : Bool :=
  match e.call with
  | .error .other => true
  | _ => false

/-- The duration an executor returns when it returns: the elapsed time when the
call to the cache returned, the initial value `-1` of `duration` when it threw. -/
def elapsed (call : Except Thrown Bool) (start stop : Int) : Int :=
  match call with
  | .ok _ => stop - start
  | .error _ => -1

/-- The request `benchmark_request` sends and the duration it returns when the
call to the cache does not escape. -/
def Workload.outcome (e : RequestEnv) : Request × Int :=
  ((Workload.benchmark_request e).1, elapsed e.call e.steadyStart e.steadyEnd)

/-- The state of the sampler after `k` rounds of the warm-up loop. -/
def warmState (env : Nat → RequestEnv) (s : Sampler) (k : Nat) : Sampler :=
  { trace := s.trace ++
      (List.range k).map (fun j => Workload.outcome (env (s.trace.length + j)))
    durations := s.durations }

/-- The state of the sampler after `k` rounds of the measured loop. -/
def measuredState (env : Nat → RequestEnv) (s : Sampler) (k : Nat) : Sampler :=
  { trace := s.trace ++
      (List.range k).map (fun j => Workload.outcome (env (s.trace.length + j)))
    durations := (List.range k).map (fun i => time (env (s.trace.length + i))) ++
      s.durations.drop k }

/-- Whether every call to the cache that a thread makes, for `nreq` measured
requests, returns or throws a `std::exception`. -/
def contained (nreq : Nat) (env : Nat → RequestEnv) : Prop :=
  ∀ k, k < 256 + nreq → (env k).call ≠ .error .other

/-- The values `1, 2, ..., 100`. -/
def hundred : List ℚ :=
  List.map (fun k : Nat => (k : ℚ)) (List.range' 1 100)

/-- An environment in which the call to the cache throws a `std::exception` and
the outer clock advances by 1000 ticks. -/
def throwing : RequestEnv :=
  { kindDraw := 0, keyDraw := 0, lenDraw := 0, uniform := fun _ => 0,
    call := .error (.stdException "timeout"),
    steadyStart := 0, steadyEnd := 0, outerStart := 0, outerEnd := 1000 }

/-- An environment in which the call to the cache throws an object that is not a
`std::exception`. -/
def escaping : RequestEnv :=
  { kindDraw := 0, keyDraw := 0, lenDraw := 0, uniform := fun _ => 0,
    call := .error .other,
    steadyStart := 0, steadyEnd := 0, outerStart := 0, outerEnd := 1000 }

/-- An environment in which the value drawn for the key is `-1.5`. -/
def negativeKey : RequestEnv :=
  { kindDraw := 0, keyDraw := -3 / 2, lenDraw := 0, uniform := fun _ => 0,
    call := .ok true,
    steadyStart := 0, steadyEnd := 0, outerStart := 0, outerEnd := 0 }

/-- Rounding to binary64: the natural number with at most 53 significant bits
nearest to `a`, the even one of two at the same distance.  The binary64 value
nearest to `a * 2 ^ e` is `rne53 a * 2 ^ e`, for every exponent `e` in range. -/
def rne53 (a : Nat) : Nat :=
  let s := Nat.log2 a - 52
  let q := a / 2 ^ s
  let r := a % 2 ^ s
  if 2 * r < 2 ^ s ∨ (2 * r = 2 ^ s ∧ q % 2 = 0) then q * 2 ^ s else (q + 1) * 2 ^ s

/-- The expression `std::ceil(95.0 / 100.0 * latencies.size()) - 1` evaluated in
binary64 arithmetic: the size is converted, the product is rounded (it is kept
in units of `2 ^ (-53)`, the constant `95.0 / 100.0` being
`8556839292003942 * 2 ^ (-53)`), the ceiling is taken and 1 is subtracted. -/
def nineFiveBinary64 (size : Nat) : Int :=
  let n := rne53 size
  let product := rne53 (8556839292003942 * n)
  let ceiling := (product + (2 ^ 53 - 1)) / 2 ^ 53
  if ceiling = 0 then -1 else (rne53 (ceiling - 1) : Int)

/-! # Theorems -/

/-! ## Facts about the keys -/

/-- No decimal digit is the minus sign. -/
theorem digitChar_ne_minus (d : Nat) (h : d < 10) : Nat.digitChar d ≠ '-' := by
  interval_cases d <;> decide

/-- The digit loop behind `Nat.repr` adds no minus sign. -/
theorem toDigitsCore_no_minus (fuel : Nat) : ∀ (n : Nat) (ds : List Char),
    (∀ c ∈ ds, c ≠ '-') → ∀ c ∈ Nat.toDigitsCore 10 fuel n ds, c ≠ '-' := by
  induction fuel with
  | zero => intro n ds h; simpa [Nat.toDigitsCore] using h
  | succ fuel ih =>
    intro n ds h
    have hd : ∀ c ∈ Nat.digitChar (n % 10) :: ds, c ≠ '-' := by
      intro c hc
      rcases List.mem_cons.mp hc with rfl | hc
      · exact digitChar_ne_minus _ (Nat.mod_lt _ (by decide))
      · exact h c hc
    unfold Nat.toDigitsCore
    dsimp only
    split
    · exact hd
    · exact ih _ _ hd

/-- The decimal string of a natural number does not start with a minus sign. -/
theorem repr_head_ne_minus (n : Nat) : (Nat.repr n).data.head? ≠ some '-' := by
  intro h
  have hmem : '-' ∈ (Nat.repr n).data := List.mem_of_mem_head? h
  have hno : ∀ c ∈ (Nat.repr n).data, c ≠ '-' := by
    unfold Nat.repr Nat.toDigits
    exact toDigitsCore_no_minus _ _ _ (by simp)
  exact hno _ hmem rfl

/-- Truncation commutes with the absolute value. -/
theorem natAbs_truncate (d : ℚ) : (truncate d).natAbs = (truncate |d|).toNat := by
  unfold truncate
  rw [if_pos (abs_nonneg d)]
  by_cases h : 0 ≤ d
  · rw [if_pos h, abs_of_nonneg h]
    have := Int.floor_nonneg.mpr h
    omega
  · rw [if_neg h]
    have hd : d ≤ 0 := le_of_lt (not_le.mp h)
    rw [abs_of_nonpos hd, Int.floor_neg]
    have : Int.ceil d ≤ 0 := Int.ceil_le.mpr (by simpa using hd)
    omega

/-- The truncated value is negative exactly for the values up to `-1`. -/
theorem truncate_neg_iff (d : ℚ) : truncate d < 0 ↔ d ≤ -1 := by
  unfold truncate
  by_cases h : 0 ≤ d
  · rw [if_pos h]
    have := Int.floor_nonneg.mpr h
    constructor
    · intro h'; omega
    · intro h'; linarith
  · rw [if_neg h]
    have hiff : Int.ceil d ≤ -1 ↔ d ≤ ((-1 : Int) : ℚ) := Int.ceil_le
    rw [Int.cast_neg, Int.cast_one] at hiff
    rw [← hiff]
    omega

/-! ## Facts about the sampler -/

/-- What the three executors do with the three ways a call to the cache ends. -/
theorem get_eq (key : String) (call : Except Thrown Bool) (start stop : Int) :
    Workload.get key call start stop =
      match call with
      | .ok _ => .ok (stop - start)
      | .error (.stdException _) => .ok (-1)
      | .error .other => .error .other := by
  rcases call with (_ | _) | _ <;> rfl

/-- Method `Workload::set`, case by case. -/
theorem set_eq (key data : String) (call : Except Thrown Bool) (start stop : Int) :
    Workload.set key data call start stop =
      match call with
      | .ok _ => .ok (stop - start)
      | .error (.stdException _) => .ok (-1)
      | .error .other => .error .other := by
  rcases call with (_ | _) | _ <;> rfl

/-- Method `Workload::del`, case by case. -/
theorem del_eq (key : String) (call : Except Thrown Bool) (start stop : Int) :
    Workload.del key call start stop =
      match call with
      | .ok _ => .ok (stop - start)
      | .error (.stdException _) => .ok (-1)
      | .error .other => .error .other := by
  rcases call with (_ | _) | _ <;> rfl

/-- Method `Workload::benchmark_request` returns unless the call to the cache
throws an object that is not a `std::exception`, which leaves it. -/
theorem benchmark_request_result (e : RequestEnv) :
    (Workload.benchmark_request e).2 =
      if e.escapes then .error .other else .ok (elapsed e.call e.steadyStart e.steadyEnd) := by
  have key : ∀ call : Except Thrown Bool,
      (match call with
        | .ok _ => (.ok (e.steadyEnd - e.steadyStart) : Except Thrown Int)
        | .error (.stdException _) => .ok (-1)
        | .error .other => .error .other) =
      if (match call with
          | .error .other => true
          | _ => false) then .error .other else .ok (elapsed call e.steadyStart e.steadyEnd) := by
    intro call
    rcases call with (_ | _) | _ <;> rfl
  unfold Workload.benchmark_request RequestEnv.escapes
  split
  · simp only [get_eq]; exact key e.call
  · simp only [set_eq]; exact key e.call
  · simp only [del_eq]; exact key e.call

/-- The key `benchmark_request` sends is `std::to_string(rand_ssize())`. -/
theorem key_of_request (e : RequestEnv) :
    (Workload.benchmark_request e).1.key = to_string (truncate e.keyDraw) := by
  unfold Workload.benchmark_request
  split <;> rfl

/-- The statement `workload->benchmark_request();` adds one entry to the trace
when the call to the cache does not escape. -/
theorem request_ok (env : Nat → RequestEnv) (s : Sampler)
    (h : (env s.trace.length).escapes = false) :
    s.request env =
      .ok { s with trace := s.trace ++ [Workload.outcome (env s.trace.length)] } := by
  unfold Sampler.request
  rw [benchmark_request_result, h]
  rfl

/-- The statement `workload->benchmark_request();` is left by the object thrown
when the call to the cache escapes. -/
theorem request_escapes (env : Nat → RequestEnv) (s : Sampler)
    (h : (env s.trace.length).escapes = true) :
    s.request env = .error .other := by
  unfold Sampler.request
  rw [benchmark_request_result, h]
  rfl

/-- A loop whose rounds all return goes through the states `g 0`, `g 1`, ... -/
theorem forLoop_ok {σ : Type} (body : Nat → σ → Except Thrown σ) (g : Nat → σ) (n : Nat)
    (h : ∀ k, k < n → body k (g k) = .ok (g (k + 1))) :
    forLoop body n (g 0) = .ok (g n) := by
  induction n with
  | zero => rfl
  | succ n ih =>
    rw [forLoop, ih (fun k hk => h k (by omega))]
    exact h n (by omega)

/-- A loop with a round that throws, the rounds before it returning, is left by
the object thrown. -/
theorem forLoop_error {σ : Type} (body : Nat → σ → Except Thrown σ) (g : Nat → σ)
    (thrown : Thrown) (n k : Nat) (hk : k < n)
    (hok : ∀ j, j < k → body j (g j) = .ok (g (j + 1)))
    (herr : body k (g k) = .error thrown) :
    forLoop body n (g 0) = .error thrown := by
  induction n with
  | zero => omega
  | succ n ih =>
    rw [forLoop]
    by_cases hkn : k < n
    · rw [ih hkn]
      rfl
    · have hkeq : k = n := by omega
      subst hkeq
      rw [forLoop_ok body g k hok]
      exact herr


/-- A call to the cache escapes exactly when it throws an object that is not a
`std::exception`. -/
theorem escapes_eq_false_iff (e : RequestEnv) :
    e.escapes = false ↔ e.call ≠ .error .other := by
  unfold RequestEnv.escapes
  rcases e.call with (_ | _) | _ <;> simp

/-- A thread whose calls are contained has no call that escapes. -/
theorem contained_iff (nreq : Nat) (env : Nat → RequestEnv) :
    contained nreq env ↔ ∀ k, k < 256 + nreq → (env k).escapes = false := by
  unfold contained
  simp only [escapes_eq_false_iff]

/-- Before the first round the loops are in the state they start from. -/
theorem warmState_zero (env : Nat → RequestEnv) (s : Sampler) : warmState env s 0 = s := by
  cases s
  simp [warmState]

/-- Before the first round the loops are in the state they start from. -/
theorem measuredState_zero (env : Nat → RequestEnv) (s : Sampler) :
    measuredState env s 0 = s := by
  cases s
  simp [measuredState]

/-- One round of the warm-up loop whose call to the cache does not escape. -/
theorem warm_step_ok (env : Nat → RequestEnv) (s : Sampler) (k : Nat)
    (h : (env (s.trace.length + k)).escapes = false) :
    (warmState env s k).request env = .ok (warmState env s (k + 1)) := by
  have hlen : (warmState env s k).trace.length = s.trace.length + k := by
    simp [warmState]
  rw [request_ok env _ (by rw [hlen]; exact h), hlen]
  simp [warmState, List.range_succ]

/-- One round of the warm-up loop whose call to the cache escapes. -/
theorem warm_step_escapes (env : Nat → RequestEnv) (s : Sampler) (k : Nat)
    (h : (env (s.trace.length + k)).escapes = true) :
    (warmState env s k).request env = .error .other := by
  have hlen : (warmState env s k).trace.length = s.trace.length + k := by
    simp [warmState]
  exact request_escapes env _ (by rw [hlen]; exact h)

/-- One round of the measured loop whose call to the cache does not escape. -/
theorem measured_step_ok (env : Nat → RequestEnv) (s : Sampler) (k : Nat)
    (hk : k < s.durations.length) (h : (env (s.trace.length + k)).escapes = false) :
    measured env k (measuredState env s k) = .ok (measuredState env s (k + 1)) := by
  have hlen : (measuredState env s k).trace.length = s.trace.length + k := by
    simp [measuredState]
  unfold measured
  rw [request_ok env _ (by rw [hlen]; exact h), hlen]
  show Except.ok _ = Except.ok _
  congr 1
  have hdrop : s.durations.drop k = s.durations[k] :: s.durations.drop (k + 1) :=
    List.drop_eq_getElem_cons hk
  unfold measuredState
  dsimp only
  rw [Sampler.mk.injEq]
  constructor
  · rw [List.range_succ, List.map_append, List.append_assoc]
    rfl
  · rw [hdrop, List.set_append_right _ _ (by simp), List.length_map, List.length_range,
      Nat.sub_self, List.set_cons_zero, List.range_succ, List.map_append, List.append_assoc]
    rfl

/-- One round of the measured loop whose call to the cache escapes. -/
theorem measured_step_escapes (env : Nat → RequestEnv) (s : Sampler) (k : Nat)
    (h : (env (s.trace.length + k)).escapes = true) :
    measured env k (measuredState env s k) = .error .other := by
  have hlen : (measuredState env s k).trace.length = s.trace.length + k := by
    simp [measuredState]
  unfold measured
  rw [request_escapes env _ (by rw [hlen]; exact h)]
  rfl

/-- The first of the calls that escape, when there is one. -/
theorem first_escape (p : Nat → Bool) (n : Nat) (h : ∃ k, k < n ∧ p k = true) :
    ∃ k, k < n ∧ p k = true ∧ ∀ j, j < k → p j = false := by
  classical
  refine ⟨Nat.find h, (Nat.find_spec h).1, (Nat.find_spec h).2, ?_⟩
  intro j hj
  have hmin := Nat.find_min h hj
  by_contra hp
  exact hmin ⟨lt_trans hj (Nat.find_spec h).1, by simpa using hp⟩

/-- The warm-up loop returns when none of its calls to the cache escapes. -/
theorem warmup_ok (env : Nat → RequestEnv) (n : Nat) (s : Sampler)
    (h : ∀ k, k < n → (env (s.trace.length + k)).escapes = false) :
    forLoop (fun _ s => s.request env) n s = .ok (warmState env s n) := by
  have := forLoop_ok (fun _ s => s.request env) (warmState env s) n
    (fun k hk => warm_step_ok env s k (h k hk))
  rwa [warmState_zero] at this

/-- The warm-up loop is left by the object thrown when a call to the cache
escapes. -/
theorem warmup_escapes (env : Nat → RequestEnv) (n : Nat) (s : Sampler)
    (h : ∃ k, k < n ∧ (env (s.trace.length + k)).escapes = true) :
    forLoop (fun _ s => s.request env) n s = .error .other := by
  obtain ⟨k, hk, hesc, hmin⟩ := first_escape (fun k => (env (s.trace.length + k)).escapes) n h
  have := forLoop_error (fun _ s => s.request env) (warmState env s) .other n k hk
    (fun j hj => warm_step_ok env s j (hmin j hj)) (warm_step_escapes env s k hesc)
  rwa [warmState_zero] at this

/-- The measured loop returns when none of its calls to the cache escapes. -/
theorem measured_ok (env : Nat → RequestEnv) (n : Nat) (s : Sampler)
    (hn : n ≤ s.durations.length)
    (h : ∀ k, k < n → (env (s.trace.length + k)).escapes = false) :
    forLoop (measured env) n s = .ok (measuredState env s n) := by
  have := forLoop_ok (measured env) (measuredState env s) n
    (fun k hk => measured_step_ok env s k (by omega) (h k hk))
  rwa [measuredState_zero] at this

/-- The measured loop is left by the object thrown when a call to the cache
escapes. -/
theorem measured_escapes (env : Nat → RequestEnv) (n : Nat) (s : Sampler)
    (hn : n ≤ s.durations.length)
    (h : ∃ k, k < n ∧ (env (s.trace.length + k)).escapes = true) :
    forLoop (measured env) n s = .error .other := by
  obtain ⟨k, hk, hesc, hmin⟩ := first_escape (fun k => (env (s.trace.length + k)).escapes) n h
  have := forLoop_error (measured env) (measuredState env s) .other n k hk
    (fun j hj => measured_step_ok env s j (by omega) (hmin j hj))
    (measured_step_escapes env s k hesc)
  rwa [measuredState_zero] at this

/-- Function `baseline_latencies` returns when none of its `256 + nreq` calls to
the cache escapes: it has sent `256 + nreq` requests and `durations` holds the
times of the last `nreq` of them. -/
theorem baseline_latencies_ok (nreq : Nat) (env : Nat → RequestEnv)
    (hc : contained nreq env) :
    baseline_latencies nreq env =
      .ok { trace := (List.range (256 + nreq)).map (fun k => Workload.outcome (env k))
            durations := (List.range nreq).map (fun i => time (env (256 + i))) } := by
  have h := (contained_iff nreq env).mp hc
  unfold baseline_latencies
  rw [show (do
        let s ← forLoop (fun _ s => s.request env) 256
          ({ trace := [], durations := List.replicate nreq 0 } : Sampler)
        forLoop (measured env) nreq s) =
      (forLoop (fun _ s => s.request env) 256
          ({ trace := [], durations := List.replicate nreq 0 } : Sampler) >>=
        fun s => forLoop (measured env) nreq s) from rfl]
  rw [warmup_ok env 256 _ (fun k hk => by simpa using h k (by omega))]
  show forLoop (measured env) nreq _ = _
  rw [measured_ok env nreq _ (by simp [warmState])
    (fun k hk => by simpa [warmState] using h (256 + k) (by omega))]
  simp [measuredState, warmState, List.range_add, List.map_map, Function.comp_def]

/-- Function `baseline_latencies` is left by the object thrown when one of its
`256 + nreq` calls to the cache escapes. -/
theorem baseline_latencies_escapes (nreq : Nat) (env : Nat → RequestEnv)
    (hc : ¬ contained nreq env) :
    baseline_latencies nreq env = .error .other := by
  have h : ∃ k, k < 256 + nreq ∧ (env k).escapes = true := by
    rw [contained_iff] at hc
    push_neg at hc
    obtain ⟨k, hk, hne⟩ := hc
    exact ⟨k, hk, by simpa using hne⟩
  unfold baseline_latencies
  rw [show (do
        let s ← forLoop (fun _ s => s.request env) 256
          ({ trace := [], durations := List.replicate nreq 0 } : Sampler)
        forLoop (measured env) nreq s) =
      (forLoop (fun _ s => s.request env) 256
          ({ trace := [], durations := List.replicate nreq 0 } : Sampler) >>=
        fun s => forLoop (measured env) nreq s) from rfl]
  by_cases hw : ∃ k, k < 256 ∧ (env k).escapes = true
  · rw [warmup_escapes env 256 _ (by simpa using hw)]
    rfl
  · have hw' : ∀ k, k < 256 → (env k).escapes = false := by
      intro k hk
      by_contra hc
      exact hw ⟨k, hk, by simpa using hc⟩
    rw [warmup_ok env 256 _ (fun k hk => by simpa using hw' k hk)]
    show forLoop (measured env) nreq _ = _
    obtain ⟨k, hk, hesc⟩ := h
    have hk256 : 256 ≤ k := by
      by_contra hc
      rw [hw' k (by omega)] at hesc
      cases hesc
    apply measured_escapes env nreq _ (by simp [warmState])
    refine ⟨k - 256, by omega, ?_⟩
    have : 256 + (k - 256) = k := by omega
    simpa [warmState, this] using hesc

/-- The shared vector once every thread is joined is the concatenation of the
threads' outputs, in the order in which the threads took the mutex. -/
theorem fanIn_ok (nreq_split : Nat) (envs : Nat → Nat → RequestEnv) (order : List Nat)
    (h : ∀ t, t ∈ order → contained nreq_split (envs t)) :
    fanIn nreq_split envs order =
      .ok (order.map (fun t =>
        (List.range nreq_split).map (fun i => time (envs t (256 + i))))).flatten := by
  have key : ∀ (order : List Nat) (acc : List ℚ),
      (∀ t, t ∈ order → contained nreq_split (envs t)) →
      order.foldlM (fun total t => threadFunction nreq_split (envs t) total) acc =
        .ok (acc ++ (order.map (fun t =>
          (List.range nreq_split).map (fun i => time (envs t (256 + i))))).flatten) := by
    intro order
    induction order with
    | nil => intro acc _; simp [pure, Except.pure]
    | cons t rest ih =>
      intro acc hall
      rw [List.foldlM_cons]
      have ht : threadFunction nreq_split (envs t) acc =
          .ok (acc ++ (List.range nreq_split).map (fun i => time (envs t (256 + i)))) := by
        unfold threadFunction
        rw [baseline_latencies_ok _ _ (hall t (List.mem_cons_self _ _))]
        rfl
      rw [ht]
      show List.foldlM _ _ rest = _
      rw [ih _ (fun t' ht' => hall t' (List.mem_cons_of_mem _ ht'))]
      simp [List.append_assoc]
  unfold fanIn
  rw [key order [] h]
  simp

/-- When a call to the cache escapes in some thread, the object thrown leaves
the thread function and no shared vector is left to read. -/
theorem fanIn_escapes (nreq_split : Nat) (envs : Nat → Nat → RequestEnv) (order : List Nat)
    (h : ∃ t, t ∈ order ∧ ¬ contained nreq_split (envs t)) :
    fanIn nreq_split envs order = .error .other := by
  have key : ∀ (order : List Nat) (acc : List ℚ),
      (∃ t, t ∈ order ∧ ¬ contained nreq_split (envs t)) →
      order.foldlM (fun total t => threadFunction nreq_split (envs t) total) acc =
        .error .other := by
    intro order
    induction order with
    | nil => intro acc ⟨t, ht, _⟩; simp at ht
    | cons t rest ih =>
      intro acc hex
      rw [List.foldlM_cons]
      by_cases hc : contained nreq_split (envs t)
      · have ht : threadFunction nreq_split (envs t) acc =
            .ok (acc ++ (List.range nreq_split).map (fun i => time (envs t (256 + i)))) := by
          unfold threadFunction
          rw [baseline_latencies_ok _ _ hc]
          rfl
        rw [ht]
        show List.foldlM _ _ rest = _
        apply ih
        obtain ⟨t', ht', hn⟩ := hex
        rcases List.mem_cons.mp ht' with rfl | hmem
        · exact absurd hc hn
        · exact ⟨t', hmem, hn⟩
      · have ht : threadFunction nreq_split (envs t) acc = .error .other := by
          unfold threadFunction
          rw [baseline_latencies_escapes _ _ hc]
          rfl
        rw [ht]
        rfl
  unfold fanIn
  exact key order [] h

/-- Every thread contributes `nreq_split` values to the shared vector. -/
theorem flatten_length (nreq_split : Nat) (envs : Nat → Nat → RequestEnv) (order : List Nat) :
    ((order.map (fun t =>
        (List.range nreq_split).map (fun i => time (envs t (256 + i))))).flatten).length =
      order.length * nreq_split := by
  induction order with
  | nil => simp
  | cons t rest ih =>
    simp only [List.map_cons, List.flatten_cons, List.length_append, List.length_map,
      List.length_range, List.length_cons, ih]
    ring

/-- Whenever the threads are all joined, the shared vector has `nreq_split`
values of each. -/
theorem fanIn_length (nreq_split : Nat) (envs : Nat → Nat → RequestEnv) (order : List Nat)
    (total : List ℚ) (h : fanIn nreq_split envs order = .ok total) :
    total.length = order.length * nreq_split ∧
      ∀ t, t ∈ order → contained nreq_split (envs t) := by
  by_cases hc : ∀ t, t ∈ order → contained nreq_split (envs t)
  · rw [fanIn_ok _ _ _ hc] at h
    cases h
    exact ⟨flatten_length _ _ _, hc⟩
  · push_neg at hc
    rw [fanIn_escapes _ _ _ hc] at h
    cases h

/-! ## Facts about binary64 rounding -/

/-- An integer is rounded to itself. -/
theorem rne_intCast (z : Int) : rne (z : ℚ) = z := by
  unfold rne
  simp

/-- Rounding to an integer moves a number by at most one half. -/
theorem rne_near (q : ℚ) : |(rne q : ℚ) - q| ≤ 1 / 2 := by
  unfold rne
  have h1 : (Int.floor q : ℚ) ≤ q := Int.floor_le q
  have h2 : q < (Int.floor q : ℚ) + 1 := Int.lt_floor_add_one q
  dsimp only
  split_ifs with ha hb hc
  · rw [abs_le]; constructor <;> linarith
  · push_cast; rw [abs_le]; constructor <;> linarith
  · rw [abs_le]; constructor <;> linarith
  · push_cast; rw [abs_le]; constructor <;> linarith

/-- The binary exponent of a positive number between two consecutive powers of
two. -/
theorem log_eq_of_bounds (r : ℚ) (L : Int) (h1 : (2 : ℚ) ^ L ≤ r)
    (h2 : r < (2 : ℚ) ^ (L + 1)) : Int.log 2 r = L := by
  have hr : 0 < r := lt_of_lt_of_le (by positivity) h1
  have ha : L ≤ Int.log 2 r :=
    (Int.zpow_le_iff_le_log (by norm_num) hr).mp (by exact_mod_cast h1)
  have hb : Int.log 2 r < L + 1 :=
    (Int.lt_zpow_iff_log_lt (by norm_num) hr).mp (by exact_mod_cast h2)
  omega

/-- Rounding of a number in the normal range, with binary exponent `L`: the
result is finite, a multiple of `2 ^ (L - 52)`, and at most half that spacing
away. -/
theorem round64_normal (x : ℚ) (L : Int) (hL1 : -1022 ≤ L) (hL2 : L ≤ 1022)
    (h1 : (2 : ℚ) ^ L ≤ |x|) (h2 : |x| < (2 : ℚ) ^ (L + 1)) :
    round64 x = .fin ((rne (x / 2 ^ (L - 52)) : ℚ) * 2 ^ (L - 52)) ∧
      |(rne (x / 2 ^ (L - 52)) : ℚ) * 2 ^ (L - 52) - x| ≤ (2 : ℚ) ^ (L - 53) := by
  have hlog : Int.log 2 |x| = L := log_eq_of_bounds |x| L h1 h2
  have hmax : max (L - 52) (-1074) = L - 52 := max_eq_left (by omega)
  have hP : (0 : ℚ) < 2 ^ (L - 52) := zpow_pos (by norm_num) _
  have hhalf : (2 : ℚ) ^ (L - 53) = 2 ^ (L - 52) / 2 := by
    have : L - 53 = (L - 52) - 1 := by ring
    rw [this, zpow_sub_one₀ (by norm_num : (2 : ℚ) ≠ 0)]
    ring
  have hnear : |(rne (x / 2 ^ (L - 52)) : ℚ) * 2 ^ (L - 52) - x| ≤ (2 : ℚ) ^ (L - 53) := by
    have hq := rne_near (x / 2 ^ (L - 52))
    have heq : (rne (x / 2 ^ (L - 52)) : ℚ) * 2 ^ (L - 52) - x =
        ((rne (x / 2 ^ (L - 52)) : ℚ) - x / 2 ^ (L - 52)) * 2 ^ (L - 52) := by
      field_simp
    rw [heq, abs_mul, abs_of_pos hP, hhalf]
    calc |(rne (x / 2 ^ (L - 52)) : ℚ) - x / 2 ^ (L - 52)| * 2 ^ (L - 52)
        ≤ 1 / 2 * 2 ^ (L - 52) := mul_le_mul_of_nonneg_right hq hP.le
      _ = 2 ^ (L - 52) / 2 := by ring
  refine ⟨?_, hnear⟩
  have hb1 : (2 : ℚ) ^ (L + 1) ≤ 2 ^ (1023 : Int) :=
    zpow_le_zpow_right₀ (by norm_num) (by omega)
  have hb2 : (2 : ℚ) ^ (L - 53) ≤ 2 ^ (1023 : Int) :=
    zpow_le_zpow_right₀ (by norm_num) (by omega)
  have hb3 : (2 : ℚ) ^ (1024 : Int) = 2 ^ (1023 : Int) + 2 ^ (1023 : Int) := by
    have : (1024 : Int) = 1023 + 1 := by norm_num
    rw [this, zpow_add₀ (by norm_num : (2 : ℚ) ≠ 0)]
    norm_num
  have hy : |(rne (x / 2 ^ (L - 52)) : ℚ) * 2 ^ (L - 52)| < (2 : ℚ) ^ (1024 : Int) := by
    have htri : |(rne (x / 2 ^ (L - 52)) : ℚ) * 2 ^ (L - 52)| ≤
        |(rne (x / 2 ^ (L - 52)) : ℚ) * 2 ^ (L - 52) - x| + |x| := by
      have := abs_add ((rne (x / 2 ^ (L - 52)) : ℚ) * 2 ^ (L - 52) - x) x
      simpa using this
    linarith
  unfold round64
  simp only [hlog, hmax]
  rw [if_neg (not_le.mpr hy)]

/-- Rounding a number of the normal range changes it by a relative error of at
most `2 ^ (-53)`. -/
theorem round64_rel (x : ℚ) (h1 : (2 : ℚ) ^ (-1022 : Int) ≤ |x|)
    (h2 : |x| < (2 : ℚ) ^ (1023 : Int)) :
    ∃ y, round64 x = .fin y ∧ |y - x| ≤ |x| / 2 ^ 53 := by
  have hpos : 0 < |x| := lt_of_lt_of_le (zpow_pos (by norm_num) _) h1
  have hlo : (2 : ℚ) ^ Int.log 2 |x| ≤ |x| := by
    exact_mod_cast Int.zpow_log_le_self (b := 2) (by norm_num) hpos
  have hhi : |x| < (2 : ℚ) ^ (Int.log 2 |x| + 1) := by
    exact_mod_cast Int.lt_zpow_succ_log_self (b := 2) (by norm_num) |x|
  have hL1 : -1022 ≤ Int.log 2 |x| :=
    (Int.zpow_le_iff_le_log (by norm_num) hpos).mp (by exact_mod_cast h1)
  have hL2 : Int.log 2 |x| < 1023 :=
    (Int.lt_zpow_iff_log_lt (by norm_num) hpos).mp (by exact_mod_cast h2)
  obtain ⟨hr, hnear⟩ := round64_normal x (Int.log 2 |x|) hL1 (by omega) hlo hhi
  refine ⟨_, hr, le_trans hnear ?_⟩
  have hsplit : (2 : ℚ) ^ (Int.log 2 |x| - 53) = 2 ^ Int.log 2 |x| / 2 ^ 53 := by
    rw [zpow_sub₀ (by norm_num : (2 : ℚ) ≠ 0)]
    norm_num
  rw [hsplit]
  exact div_le_div_of_nonneg_right hlo (by positivity)

/-- A binary64 number is rounded to itself: `m * 2 ^ e` with `|m| < 2 ^ 53`,
`e` at least `-1074` and magnitude below `2 ^ 1024`. -/
theorem round64_exact (m e : Int) (hm : |m| < 2 ^ 53) (he : -1074 ≤ e)
    (hx : |(m : ℚ) * 2 ^ e| < (2 : ℚ) ^ (1024 : Int)) :
    round64 ((m : ℚ) * 2 ^ e) = .fin ((m : ℚ) * 2 ^ e) := by
  by_cases hm0 : m = 0
  · subst hm0
    unfold round64
    have hz : rne (0 : ℚ) = 0 := by simpa using rne_intCast 0
    have hbig : ¬ ((2 : ℚ) ^ (1024 : Int) ≤ 0) := not_le.mpr (zpow_pos (by norm_num) _)
    simp [hz, hbig]
  have hmq : (m : ℚ) ≠ 0 := by exact_mod_cast hm0
  have hPe : (0 : ℚ) < 2 ^ e := zpow_pos (by norm_num) _
  have hxpos : 0 < |(m : ℚ) * 2 ^ e| := abs_pos.mpr (mul_ne_zero hmq hPe.ne')
  have hmlt : |(m : ℚ)| < 2 ^ 53 := by exact_mod_cast hm
  have hlt : |(m : ℚ) * 2 ^ e| < (2 : ℚ) ^ (53 + e) := by
    rw [abs_mul, abs_of_pos hPe, zpow_add₀ (by norm_num : (2 : ℚ) ≠ 0)]
    have : ((2 : ℚ) ^ (53 : Int)) = 2 ^ 53 := by norm_num
    rw [this]
    exact mul_lt_mul_of_pos_right hmlt hPe
  have hlog : Int.log 2 |(m : ℚ) * 2 ^ e| < 53 + e :=
    (Int.lt_zpow_iff_log_lt (by norm_num) hxpos).mp (by exact_mod_cast hlt)
  obtain ⟨d, hd⟩ : ∃ d : Nat, e = max (Int.log 2 |(m : ℚ) * 2 ^ e| - 52) (-1074) + d := by
    refine ⟨(e - max (Int.log 2 |(m : ℚ) * 2 ^ e| - 52) (-1074)).toNat, ?_⟩
    have : max (Int.log 2 |(m : ℚ) * 2 ^ e| - 52) (-1074) ≤ e := max_le (by omega) he
    omega
  unfold round64
  generalize max (Int.log 2 |(m : ℚ) * 2 ^ e| - 52) (-1074) = e' at hd
  have hPe' : (0 : ℚ) < 2 ^ e' := zpow_pos (by norm_num) _
  have hquot : (m : ℚ) * 2 ^ e / 2 ^ e' = ((m * 2 ^ d : Int) : ℚ) := by
    rw [hd, zpow_add₀ (by norm_num : (2 : ℚ) ≠ 0), zpow_natCast]
    push_cast
    field_simp
    ring
  have hy : ((m * 2 ^ d : Int) : ℚ) * 2 ^ e' = (m : ℚ) * 2 ^ e := by
    rw [← hquot]
    field_simp
  simp only [hquot, rne_intCast, hy]
  rw [if_neg (not_le.mpr hx)]

/-- A natural number below `2 ^ 53` is a binary64 number. -/
theorem round64_natCast (n : Nat) (h : n < 2 ^ 53) : round64 (n : ℚ) = .fin (n : ℚ) := by
  have := round64_exact (n : Int) 0 (by rw [abs_of_nonneg (by positivity)]; exact_mod_cast h)
    (by norm_num) (by
      simp only [zpow_zero, mul_one, Int.cast_natCast]
      rw [abs_of_nonneg (by positivity)]
      have h1 : (n : ℚ) < 2 ^ 53 := by exact_mod_cast h
      have h2 : (2 : ℚ) ^ 53 ≤ 2 ^ (1024 : Int) := by norm_num
      linarith)
  simpa using this

/-- Rounding never gives a NaN. -/
theorem round64_ne_nan (x : ℚ) : round64 x ≠ .nan := by
  unfold round64
  dsimp only
  split <;> simp

/-- A number of magnitude 1 or more is not rounded to zero. -/
theorem round64_ne_zero (x : ℚ) (h : 1 ≤ |x|) : round64 x ≠ .fin 0 := by
  have hpos : 0 < |x| := lt_of_lt_of_le one_pos h
  have hL : 0 ≤ Int.log 2 |x| :=
    (Int.zpow_le_iff_le_log (by norm_num) hpos).mp (by simpa using h)
  have hlo : (2 : ℚ) ^ Int.log 2 |x| ≤ |x| := by
    exact_mod_cast Int.zpow_log_le_self (b := 2) (by norm_num) hpos
  have hmax : max (Int.log 2 |x| - 52) (-1074) = Int.log 2 |x| - 52 := max_eq_left (by omega)
  have hP : (0 : ℚ) < 2 ^ (Int.log 2 |x| - 52) := zpow_pos (by norm_num) _
  have hq : (1 : ℚ) ≤ |x / 2 ^ (Int.log 2 |x| - 52)| := by
    rw [abs_div, abs_of_pos hP, le_div_iff₀ hP, one_mul]
    calc (2 : ℚ) ^ (Int.log 2 |x| - 52) ≤ 2 ^ Int.log 2 |x| :=
          zpow_le_zpow_right₀ (by norm_num) (by omega)
      _ ≤ |x| := hlo
  have hne : (rne (x / 2 ^ (Int.log 2 |x| - 52)) : ℚ) ≠ 0 := by
    intro h0
    have hnear := rne_near (x / 2 ^ (Int.log 2 |x| - 52))
    rw [h0, zero_sub, abs_neg] at hnear
    linarith
  unfold round64
  simp only [hmax]
  split
  · simp
  · intro hfin
    injection hfin with hval
    rcases mul_eq_zero.mp hval with h0 | h0
    · exact hne h0
    · exact hP.ne' h0

/-! ## Facts about the statistics -/

/-- The ceiling inside `nineFive`, as a natural number. -/
theorem ceil_nineFive (size : Nat) :
    Int.ceil ((95 : ℚ) / 100 * (size : ℚ)) = (((19 * size + 19) / 20 : Nat) : Int) := by
  generalize hk : (19 * size + 19) / 20 = k
  have h2 : 19 * size ≤ 20 * k := by omega
  have h3 : 20 * k < 19 * size + 20 := by omega
  have h2q : (19 : ℚ) * (size : ℚ) ≤ 20 * (k : ℚ) := by exact_mod_cast h2
  have h3q : (20 : ℚ) * (k : ℚ) < 19 * (size : ℚ) + 20 := by exact_mod_cast h3
  rw [Int.ceil_eq_iff, Int.cast_natCast]
  constructor <;> linarith

/-- A number of at most 53 bits is a binary64 value. -/
theorem rne53_of_lt (a : Nat) (h : a < 2 ^ 53) : rne53 a = a := by
  have hs : Nat.log2 a - 52 = 0 := by
    by_cases h0 : a = 0
    · subst h0; simp [Nat.log2_zero]
    · have := (Nat.log2_lt h0).mpr h
      omega
  unfold rne53
  simp [hs, Nat.mod_one]

/-- Rounding moves a number by at most half the spacing of the binary64 values
around it, and not beyond a multiple of that spacing. -/
theorem rne53_near (a : Nat) :
    2 * a ≤ 2 * rne53 a + 2 ^ (Nat.log2 a - 52) ∧
      ∀ m, a ≤ 2 ^ (Nat.log2 a - 52) * m → rne53 a ≤ 2 ^ (Nat.log2 a - 52) * m := by
  have key : ∀ P q r : Nat, 0 < P → P * q + r = a → r < P →
      2 * a ≤ 2 * (if 2 * r < P ∨ (2 * r = P ∧ q % 2 = 0) then q * P else (q + 1) * P) + P ∧
        ∀ m, a ≤ P * m →
          (if 2 * r < P ∨ (2 * r = P ∧ q % 2 = 0) then q * P else (q + 1) * P) ≤ P * m := by
    intro P q r hPpos hdm hr
    split
    · rename_i hdown
      have h2r : 2 * r ≤ P := by omega
      constructor
      · nlinarith
      · intro m hm
        nlinarith
    · rename_i hup
      have hrpos : 0 < r := by omega
      constructor
      · nlinarith
      · intro m hm
        have hqm : q < m := by
          by_contra hcon
          have hmq : m ≤ q := not_lt.mp hcon
          have : P * m ≤ P * q := Nat.mul_le_mul_left P hmq
          omega
        have : P * (q + 1) ≤ P * m := Nat.mul_le_mul_left P hqm
        nlinarith
  exact key (2 ^ (Nat.log2 a - 52)) (a / 2 ^ (Nat.log2 a - 52)) (a % 2 ^ (Nat.log2 a - 52))
    (by positivity) (Nat.div_add_mod a _) (Nat.mod_lt a (by positivity))

/-- Rounding does not change the index: for a vector of fewer than `2 ^ 48`
elements the binary64 evaluation of `nineFive` gives the exact value. -/
theorem nineFiveBinary64_eq (size : Nat) (h : size < 2 ^ 48) :
    nineFiveBinary64 size = nineFive size := by
  have h48 : size < 281474976710656 := by norm_num at h; exact h
  unfold nineFiveBinary64 nineFive
  rw [ceil_nineFive, rne53_of_lt size (by norm_num; omega)]
  by_cases h0 : size = 0
  · subst h0
    simp [rne53]
  dsimp only
  generalize hk : (19 * size + 19) / 20 = k
  have hk1 : 20 * (k - 1) + 1 ≤ 19 * size := by omega
  have hk2 : 19 * size ≤ 20 * k := by omega
  have hkpos : 1 ≤ k := by omega
  generalize ha : 8556839292003942 * size = a
  obtain ⟨hlow, hup⟩ := rne53_near a
  have hapos : a ≠ 0 := by omega
  -- the spacing of binary64 around `a`
  have hs48 : Nat.log2 a - 52 ≤ 53 := by
    have : Nat.log2 a < 105 := (Nat.log2_lt hapos).mpr (by norm_num; omega)
    omega
  obtain ⟨d, hd⟩ : ∃ d, 2 ^ 53 = 2 ^ (Nat.log2 a - 52) * d :=
    Nat.pow_dvd_pow 2 hs48
  have hsmall : 2 ^ (Nat.log2 a - 52) < 2 * size := by
    by_cases hl : Nat.log2 a ≤ 52
    · have : Nat.log2 a - 52 = 0 := by omega
      rw [this]
      omega
    · have hle := Nat.log2_self_le hapos
      have hsplit : 2 ^ Nat.log2 a = 2 ^ (Nat.log2 a - 52) * 2 ^ 52 := by
        rw [← pow_add]
        congr 1
        omega
      rw [hsplit] at hle
      norm_num at hle
      omega
  generalize 2 ^ (Nat.log2 a - 52) = P at hlow hup hd hsmall
  have hupk := hup (d * k) (by
    rw [← Nat.mul_assoc, ← hd]
    norm_num
    omega)
  rw [← Nat.mul_assoc, ← hd] at hupk
  norm_num at hupk
  generalize rne53 a = product at hlow hupk ⊢
  have hceil : (product + (2 ^ 53 - 1)) / 2 ^ 53 = k := by
    norm_num
    omega
  rw [hceil, if_neg (by omega), rne53_of_lt (k - 1) (by norm_num; omega)]
  omega

/-- For a non-empty vector the index `nineFive` is a valid position. -/
theorem nineFive_bounds (size : Nat) (h : 0 < size) :
    0 ≤ nineFive size ∧ nineFive size ≤ (size : Int) - 1 := by
  unfold nineFive
  rw [ceil_nineFive]
  have h1 : 1 ≤ (19 * size + 19) / 20 := by omega
  have h2 : (19 * size + 19) / 20 ≤ size := by omega
  constructor <;> omega

/-- The vector after `std::sort` has the length of the vector before. -/
theorem length_sort (l : List ℚ) : (sort l).length = l.length :=
  List.length_insertionSort _ l

/-- The vector after `std::sort` is a rearrangement of the vector before. -/
theorem perm_sort (l : List ℚ) : (sort l).Perm l :=
  List.perm_insertionSort _ l

/-- The vector after `std::sort` is ascending. -/
theorem sorted_sort (l : List ℚ) : (sort l).Sorted (· ≤ ·) :=
  List.sorted_insertionSort _ l

/-- Any ascending rearrangement of the values is the vector `std::sort` leaves. -/
theorem sort_unique (l s : List ℚ) (hs : s.Sorted (· ≤ ·)) (hp : s.Perm l) : sort l = s :=
  List.eq_of_perm_of_sorted ((perm_sort l).trans hp.symm) (sorted_sort l) hs

/-- On a non-empty set the statistics are computed, from the sorted values. -/
theorem statistics_ok (l : List ℚ) (h : l ≠ []) :
    ∃ v, (sort l).get? (nineFive l.length).toNat = some v ∧
      statistics l = .ok
        { first := v, second := throughput (mean_latency (sort l)), sheet := sort l } := by
  have hpos : 0 < l.length := List.length_pos.mpr h
  obtain ⟨h0, h1⟩ := nineFive_bounds l.length hpos
  have hlt : (nineFive l.length).toNat < (sort l).length := by
    rw [length_sort]
    omega
  refine ⟨(sort l).get ⟨_, hlt⟩, ?_, ?_⟩
  · rw [List.get?_eq_get hlt]
  · unfold statistics
    simp only [length_sort]
    unfold vectorAt
    rw [if_pos h0, List.get?_eq_get hlt]

/-- The values `1, 2, ..., 100` are in ascending order. -/
theorem sorted_hundred : hundred.Sorted (· ≤ ·) := by
  unfold hundred
  refine List.Pairwise.map _ ?_ (List.pairwise_lt_range' 1 100)
  intro a b hab
  exact_mod_cast hab.le

/-- Sets that are rearrangements of each other have the same statistics. -/
theorem statistics_perm (l₁ l₂ : List ℚ) (h : l₁.Perm l₂) : statistics l₁ = statistics l₂ := by
  have hs : sort l₁ = sort l₂ :=
    sort_unique l₁ (sort l₂) (sorted_sort l₂) ((perm_sort l₂).trans h.symm)
  unfold statistics
  rw [hs]

/-- In an ascending vector at least `i + 1` values are at most the value at
position `i`, and at most `i` values are strictly below it. -/
theorem sorted_counts (s : List ℚ) (hs : s.Sorted (· ≤ ·)) (i : Nat) (hi : i < s.length) :
    i + 1 ≤ s.countP (fun x => decide (x ≤ s[i])) ∧
      s.countP (fun x => decide (x < s[i])) ≤ i := by
  have hle : ∀ (a b : Nat) (ha : a < s.length) (hb : b < s.length), a ≤ b → s[a] ≤ s[b] := by
    intro a b ha hb hab
    exact hs.rel_get_of_le (a := ⟨a, ha⟩) (b := ⟨b, hb⟩) hab
  constructor
  · have hall : (s.take (i + 1)).countP (fun x => decide (x ≤ s[i])) = (s.take (i + 1)).length := by
      rw [List.countP_eq_length]
      intro a ha
      obtain ⟨j, hj, rfl⟩ := List.mem_take_iff_getElem.mp ha
      have hj1 : j < i + 1 := lt_of_lt_of_le hj (min_le_left _ _)
      have hj2 : j < s.length := lt_of_lt_of_le hj (min_le_right _ _)
      simpa using hle j i hj2 hi (by omega)
    have hlen : (s.take (i + 1)).length = i + 1 := by
      rw [List.length_take]
      omega
    calc i + 1 = (s.take (i + 1)).countP (fun x => decide (x ≤ s[i])) := by rw [hall, hlen]
      _ ≤ s.countP (fun x => decide (x ≤ s[i])) :=
        (List.take_sublist (i + 1) s).countP_le _
  · have hnone : (s.drop i).countP (fun x => decide (x < s[i])) = 0 := by
      rw [List.countP_eq_zero]
      intro a ha
      obtain ⟨j, hj, rfl⟩ := List.mem_drop_iff_getElem.mp ha
      have hj' : i + j < s.length := by omega
      simpa using hle i (i + j) hi hj' (by omega)
    have hsplit : s.countP (fun x => decide (x < s[i])) =
        (s.take i).countP (fun x => decide (x < s[i])) +
          (s.drop i).countP (fun x => decide (x < s[i])) := by
      rw [← List.countP_append, List.take_append_drop]
    rw [hsplit, hnone, Nat.add_zero]
    calc (s.take i).countP (fun x => decide (x < s[i])) ≤ (s.take i).length :=
        List.countP_le_length _
      _ ≤ i := by rw [List.length_take]; exact min_le_left _ _

/-- The harness as compiled returns a report whenever its threads are all joined:
the shared vector then has 30000 elements, so the index is in bounds. -/
theorem threaded_performance_returns (envs : Nat → Nat → RequestEnv) (order : List Nat)
    (ho : order.Perm (List.range THREADS)) (total : List ℚ)
    (ht : fanIn (ITERS / THREADS) envs order = .ok total) :
    total.length = 30000 ∧
      ∃ r, statistics total = .ok r ∧ threaded_performance envs order = .ok r := by
  obtain ⟨hlen, _⟩ := fanIn_length (ITERS / THREADS) envs order total ht
  rw [ho.length_eq, List.length_range] at hlen
  have hlen' : total.length = 30000 := hlen
  have hne : total ≠ [] := by
    intro hnil
    rw [hnil] at hlen'
    simp at hlen'
  obtain ⟨v, _, hr⟩ := statistics_ok total hne
  refine ⟨hlen', _, hr, ?_⟩
  unfold threaded_performance threaded_performance_with
  simp only [ht, hr]

/-- The running sum of finite values is never a NaN. -/
theorem foldl_fadd_ne_nan (xs : List ℚ) : ∀ acc : Double, acc ≠ .nan →
    xs.foldl fadd acc ≠ .nan := by
  induction xs with
  | nil => intro acc h; simpa using h
  | cons x xs ih =>
    intro acc h
    rw [List.foldl_cons]
    apply ih
    cases acc with
    | fin a => exact round64_ne_nan _
    | inf => simp [fadd]
    | nan => exact absurd rfl h

/-- The size of a non-empty vector that fits `size_t` is converted to a finite
`double` that is not zero. -/
theorem round64_size (n : Nat) (h1 : 0 < n) (h2 : n < 2 ^ 64) :
    ∃ y, round64 (n : ℚ) = .fin y ∧ y ≠ 0 := by
  have hn1 : (1 : ℚ) ≤ (n : ℚ) := by exact_mod_cast h1
  have habs : |(n : ℚ)| = n := abs_of_nonneg (by positivity)
  have hlo : (2 : ℚ) ^ (-1022 : Int) ≤ |(n : ℚ)| := by
    rw [habs]
    have : (2 : ℚ) ^ (-1022 : Int) ≤ 1 := zpow_le_one_of_nonpos₀ (by norm_num) (by norm_num)
    linarith
  have hhi : |(n : ℚ)| < (2 : ℚ) ^ (1023 : Int) := by
    rw [habs]
    have h64 : (n : ℚ) < 2 ^ 64 := by exact_mod_cast h2
    have : (2 : ℚ) ^ 64 ≤ 2 ^ (1023 : Int) := by norm_num
    linarith
  obtain ⟨y, hy, _⟩ := round64_rel (n : ℚ) hlo hhi
  refine ⟨y, hy, ?_⟩
  rintro rfl
  exact round64_ne_zero (n : ℚ) (by rw [habs]; exact hn1) hy

/-! ## The throughput in binary64 -/

/-- C2: for every non-empty Combined Latency Set the reported p95 latency is the
element at 0-based index `ceil(0.95 * count) - 1` of the set sorted ascending,
that index lies between `0` and `count - 1`, and for the set `1, 2, ..., 100` the
index is 94 and the reported p95 is 95. -/
theorem p95_is_element_at_nineFive (l : List ℚ) (h : l ≠ []) :
    (∃ r, statistics l = .ok r ∧
      0 ≤ Int.ceil ((95 : ℚ) / 100 * (l.length : ℚ)) - 1 ∧
      Int.ceil ((95 : ℚ) / 100 * (l.length : ℚ)) - 1 ≤ (l.length : Int) - 1 ∧
      ∀ s : List ℚ, s.Sorted (· ≤ ·) → s.Perm l →
        s.get? (Int.ceil ((95 : ℚ) / 100 * (l.length : ℚ)) - 1).toNat = some r.first) ∧
    (Int.ceil ((95 : ℚ) / 100 * (hundred.length : ℚ)) - 1 = 94 ∧
      ∃ r, statistics hundred = .ok r ∧ r.first = 95) := by
  constructor
  · obtain ⟨v, hv, hr⟩ := statistics_ok l h
    obtain ⟨h0, h1⟩ := nineFive_bounds l.length (List.length_pos.mpr h)
    refine ⟨_, hr, h0, h1, ?_⟩
    intro s hs hp
    rw [← sort_unique l s hs hp]
    exact hv
  · have hlen : hundred.length = 100 := by simp [hundred]
    have hidx : nineFive hundred.length = 94 := by
      unfold nineFive
      rw [ceil_nineFive, hlen]
      norm_num
    refine ⟨hidx, ?_⟩
    obtain ⟨v, hv, hr⟩ := statistics_ok hundred (by simp [hundred])
    refine ⟨_, hr, ?_⟩
    rw [sort_unique hundred hundred sorted_hundred (List.Perm.refl _), hidx] at hv
    have h95 : hundred.get? (94 : Int).toNat = some 95 := by
      simp [hundred, List.getElem?_range']
    rw [h95] at hv
    exact (Option.some.inj hv).symm

/-- C4: the statistics depend only on the multiset of samples: two Combined
Latency Sets that are rearrangements of each other give the same p95, the same
throughput and the same exported sorted sequence; so do the same threads taking
the mutex in a different order, and so does a second run on the same set. -/
theorem statistics_of_multiset (l₁ l₂ : List ℚ) (h : l₁.Perm l₂) :
    statistics l₁ = statistics l₂ ∧
    (∀ (iters threads : Nat) (envs : Nat → Nat → RequestEnv) (order₁ order₂ : List Nat),
      order₁.Perm order₂ →
        threaded_performance_with iters threads envs order₁ =
          threaded_performance_with iters threads envs order₂) ∧
    (∀ r₁ r₂, statistics l₁ = .ok r₁ → statistics l₁ = .ok r₂ →
      r₁.first = r₂.first ∧ r₁.second = r₂.second ∧ r₁.sheet = r₂.sheet) := by
  refine ⟨statistics_perm l₁ l₂ h, ?_, ?_⟩
  · intro iters threads envs order₁ order₂ ho
    unfold threaded_performance_with
    by_cases hc : ∀ t, t ∈ order₁ → contained (iters / threads) (envs t)
    · have hc₂ : ∀ t, t ∈ order₂ → contained (iters / threads) (envs t) :=
        fun t ht => hc t (ho.mem_iff.mpr ht)
      simp only [fanIn_ok _ _ _ hc, fanIn_ok _ _ _ hc₂]
      rw [statistics_perm _ _ (ho.map _).flatten]
    · push_neg at hc
      have hc₂ : ∃ t, t ∈ order₂ ∧ ¬ contained (iters / threads) (envs t) := by
        obtain ⟨t, ht, hn⟩ := hc
        exact ⟨t, ho.mem_iff.mp ht, hn⟩
      simp only [fanIn_escapes _ _ _ hc, fanIn_escapes _ _ _ hc₂]
  · intro r₁ r₂ h₁ h₂
    rw [h₁] at h₂
    cases h₂
    exact ⟨rfl, rfl, rfl⟩

/-- C10: for every non-empty Combined Latency Set the reported p95 value is one of
the samples, at least `ceil(0.95 * count)` samples, that is at least 95% of them,
are less than or equal to it, and at most `ceil(0.95 * count) - 1` samples are
strictly less than it. -/
theorem p95_splits_the_samples (l : List ℚ) (h : l ≠ []) :
    ∃ r, statistics l = .ok r ∧ r.first ∈ l ∧
      Int.ceil ((95 : ℚ) / 100 * (l.length : ℚ)) ≤
        ((l.countP (fun x => decide (x ≤ r.first)) : Nat) : Int) ∧
      (95 : ℚ) / 100 * (l.length : ℚ) ≤ ((l.countP (fun x => decide (x ≤ r.first)) : Nat) : ℚ) ∧
      ((l.countP (fun x => decide (x < r.first)) : Nat) : Int) ≤
        Int.ceil ((95 : ℚ) / 100 * (l.length : ℚ)) - 1 := by
  obtain ⟨v, hv, hr⟩ := statistics_ok l h
  have hpos : 0 < l.length := List.length_pos.mpr h
  obtain ⟨h0, h1⟩ := nineFive_bounds l.length hpos
  have hlt : (nineFive l.length).toNat < (sort l).length := by
    rw [length_sort]
    omega
  rw [List.get?_eq_get hlt] at hv
  have hv' : (sort l)[(nineFive l.length).toNat] = v := Option.some.inj hv
  obtain ⟨hc1, hc2⟩ := sorted_counts (sort l) (sorted_sort l) _ hlt
  rw [hv', (perm_sort l).countP_eq] at hc1 hc2
  have hceil : Int.ceil ((95 : ℚ) / 100 * (l.length : ℚ)) ≤
      ((l.countP (fun x => decide (x ≤ v)) : Nat) : Int) := by
    have : Int.ceil ((95 : ℚ) / 100 * (l.length : ℚ)) = nineFive l.length + 1 := by
      unfold nineFive
      ring
    omega
  refine ⟨_, hr, ?_, hceil, ?_, ?_⟩
  · show v ∈ l
    rw [← hv']
    exact (perm_sort l).subset (List.getElem_mem _)
  · show _ ≤ ((l.countP (fun x => decide (x ≤ v)) : Nat) : ℚ)
    have h1 : (95 : ℚ) / 100 * (l.length : ℚ) ≤
        ((Int.ceil ((95 : ℚ) / 100 * (l.length : ℚ)) : Int) : ℚ) := Int.le_ceil _
    have h2 : ((Int.ceil ((95 : ℚ) / 100 * (l.length : ℚ)) : Int) : ℚ) ≤
        (((l.countP (fun x => decide (x ≤ v)) : Nat) : Int) : ℚ) := by
      exact_mod_cast hceil
    calc (95 : ℚ) / 100 * (l.length : ℚ)
        ≤ ((Int.ceil ((95 : ℚ) / 100 * (l.length : ℚ)) : Int) : ℚ) := h1
      _ ≤ (((l.countP (fun x => decide (x ≤ v)) : Nat) : Int) : ℚ) := h2
      _ = ((l.countP (fun x => decide (x ≤ v)) : Nat) : ℚ) := by push_cast; rfl
  · show ((l.countP (fun x => decide (x < v)) : Nat) : Int) ≤ _
    have : Int.ceil ((95 : ℚ) / 100 * (l.length : ℚ)) - 1 = nineFive l.length := rfl
    omega

/-- C9 as stated fails: on the empty Combined Latency Set nothing guards the
statistics; the element at index `-1` of the empty vector is read, and the mean is
`0.0 / 0`, a NaN. -/
theorem empty_set_reads_out_of_bounds :
    nineFive (sort []).length = -1 ∧
    vectorAt (sort []) (nineFive (sort []).length) = .error (.vectorIndex (-1) 0) ∧
    statistics [] = .error (.vectorIndex (-1) 0) ∧
    mean_latency (sort []) = .nan := by
  have hs : sort [] = [] := rfl
  have hi : nineFive 0 = -1 := by simp [nineFive]
  have hv : vectorAt [] (-1) = .error (.vectorIndex (-1) 0) := by simp [vectorAt]
  refine ⟨?_, ?_, ?_, ?_⟩
  · rw [hs, List.length_nil, hi]
  · rw [hs, List.length_nil, hi, hv]
  · unfold statistics
    simp only [hs, List.length_nil, hi, hv]
  · rw [hs]
    unfold mean_latency
    have h0 : round64 ((([] : List ℚ).length : Nat) : ℚ) = .fin 0 := by
      simpa using round64_natCast 0 (by norm_num)
    rw [h0]
    simp [fdiv]

/-- C9, amended: the statistics have no guard for the empty Combined Latency Set.
On the empty set, and on no other, the index is `-1`, the lookup is out of the
bounds of the vector (undefined behaviour, nothing is reported) and the mean is
a division by zero, `0.0 / 0`; with `ITERS = 30000` and `THREADS = 2` the set
that the joined threads leave is not empty and a report is returned. -/
theorem statistics_undefined_iff_empty (l : List ℚ) :
    (statistics l = .error (.vectorIndex (-1) 0) ↔ l = []) ∧
    (round64 ((sort l).length : ℚ) = .fin 0 ↔ l = []) ∧
    (l.length < 2 ^ 64 → (mean_latency (sort l) = .nan ↔ l = [])) ∧
    (∀ (envs : Nat → Nat → RequestEnv) (order : List Nat), order.Perm (List.range THREADS) →
      (∀ total, fanIn (ITERS / THREADS) envs order = .ok total →
        total ≠ [] ∧ ∃ r, threaded_performance envs order = .ok r) ∧
      ((∀ t k, t ∈ order → k < 256 + ITERS / THREADS → (envs t k).call ≠ .error .other) →
        ∃ total r, fanIn (ITERS / THREADS) envs order = .ok total ∧ total ≠ [] ∧
          threaded_performance envs order = .ok r)) := by
  have hempty : mean_latency (sort []) = .nan := by
    have hs : sort [] = [] := rfl
    rw [hs]
    unfold mean_latency
    have h0 : round64 ((([] : List ℚ).length : Nat) : ℚ) = .fin 0 := by
      simpa using round64_natCast 0 (by norm_num)
    rw [h0]
    simp [fdiv]
  refine ⟨⟨?_, ?_⟩, ⟨?_, ?_⟩, ?_, ?_⟩
  · intro he
    by_contra hne
    obtain ⟨v, _, hr⟩ := statistics_ok l hne
    rw [hr] at he
    cases he
  · rintro rfl
    have hs : sort [] = [] := rfl
    have hi : nineFive 0 = -1 := by simp [nineFive]
    have hv : vectorAt [] (-1) = .error (.vectorIndex (-1) 0) := by simp [vectorAt]
    unfold statistics
    simp only [hs, List.length_nil, hi, hv]
  · intro he
    by_contra hne
    have hpos : 0 < l.length := List.length_pos.mpr hne
    have h1 : (1 : ℚ) ≤ |((sort l).length : ℚ)| := by
      rw [length_sort, abs_of_nonneg (by positivity)]
      exact_mod_cast hpos
    exact round64_ne_zero _ h1 he
  · rintro rfl
    simpa [sort] using round64_natCast 0 (by norm_num)
  · intro h64
    constructor
    · intro he
      by_contra hne
      have hpos : 0 < l.length := List.length_pos.mpr hne
      obtain ⟨y, hy, hy0⟩ := round64_size l.length hpos h64
      unfold mean_latency at he
      rw [length_sort, hy] at he
      have hsum := foldl_fadd_ne_nan (sort l) (.fin 0) (by simp)
      cases hacc : (sort l).foldl fadd (.fin 0) with
      | fin a =>
        rw [hacc] at he
        simp only [fdiv, if_neg hy0] at he
        exact round64_ne_nan _ he
      | inf =>
        rw [hacc] at he
        simp [fdiv] at he
      | nan => exact hsum hacc
    · rintro rfl
      exact hempty
  · intro envs order ho
    constructor
    · intro total ht
      obtain ⟨hlen, r, _, hr⟩ := threaded_performance_returns envs order ho total ht
      refine ⟨?_, r, hr⟩
      intro hnil
      rw [hnil] at hlen
      simp at hlen
    · intro hc
      have hc' : ∀ t, t ∈ order → contained (ITERS / THREADS) (envs t) :=
        fun t ht k hk => hc t k ht hk
      have ht := fanIn_ok (ITERS / THREADS) envs order hc'
      obtain ⟨hlen, r, _, hr⟩ := threaded_performance_returns envs order ho _ ht
      refine ⟨_, r, ht, ?_, hr⟩
      intro hnil
      rw [hnil] at hlen
      simp at hlen

/-- C9, amended, at the empty set and with the threads in the order 1, 0. -/
theorem statistics_undefined_iff_empty_witness :
    statistics [] = .error (.vectorIndex (-1) 0) ∧
    ∃ total r,
      fanIn (ITERS / THREADS) (fun _ _ => ⟨0, 0, 0, fun _ => 0, .ok true, 0, 0, 0, 0⟩)
        [1, 0] = .ok total ∧ total ≠ [] ∧
      threaded_performance (fun _ _ => ⟨0, 0, 0, fun _ => 0, .ok true, 0, 0, 0, 0⟩)
        [1, 0] = .ok r :=
  ⟨(statistics_undefined_iff_empty []).1.mpr rfl,
    ((statistics_undefined_iff_empty []).2.2.2 _ [1, 0] (by decide)).2
      (fun _ _ _ _ => by simp)⟩

/-! ## The claims about the sampler and the threads -/

/-- C1: for every total iteration count `n` and every thread count `T ≥ 1`, once
all `T` threads have run `baseline_latencies(n / T)` and appended their output,
`total_thread_output` has exactly `T * (n / T)` elements, whatever the calls to
the cache return or throw and in whatever order the threads append; with
`ITERS = 30000` and `THREADS = 2` this is 30000.  The threads all get that far
when every object thrown by the cache is a `std::exception`. -/
theorem combined_set_size (n T : Nat) (_hT : 1 ≤ T) (envs : Nat → Nat → RequestEnv)
    (order : List Nat) (ho : order.Perm (List.range T)) :
    (∀ total, fanIn (n / T) envs order = .ok total → total.length = T * (n / T)) ∧
    ((∀ t k, t ∈ order → k < 256 + n / T → (envs t k).call ≠ .error .other) →
      ∃ total, fanIn (n / T) envs order = .ok total ∧ total.length = T * (n / T)) ∧
    (∀ (envs : Nat → Nat → RequestEnv) (order : List Nat), order.Perm (List.range THREADS) →
      (∀ total, fanIn (ITERS / THREADS) envs order = .ok total → total.length = 30000) ∧
      ((∀ t k, t ∈ order → k < 256 + ITERS / THREADS → (envs t k).call ≠ .error .other) →
        ∃ total, fanIn (ITERS / THREADS) envs order = .ok total ∧ total.length = 30000)) := by
  have hlen : ∀ total, fanIn (n / T) envs order = .ok total →
      total.length = T * (n / T) := by
    intro total ht
    rw [(fanIn_length _ _ _ total ht).1, ho.length_eq, List.length_range]
  refine ⟨hlen, ?_, ?_⟩
  · intro hc
    have ht := fanIn_ok (n / T) envs order (fun t ht k hk => hc t k ht hk)
    exact ⟨_, ht, hlen _ ht⟩
  · intro envs order ho
    have hlen' : ∀ total, fanIn (ITERS / THREADS) envs order = .ok total →
        total.length = 30000 := by
      intro total ht
      rw [(fanIn_length _ _ _ total ht).1, ho.length_eq, List.length_range]
      rfl
    refine ⟨hlen', ?_⟩
    intro hc
    have ht := fanIn_ok (ITERS / THREADS) envs order (fun t ht k hk => hc t k ht hk)
    exact ⟨_, ht, hlen' _ ht⟩

/-- C1 for 7 iterations on 3 threads that append in the order 2, 0, 1, every call
to the cache throwing a `std::exception`: 6 elements. -/
theorem combined_set_size_witness :
    (1 ≤ 3 ∧ [2, 0, 1].Perm (List.range 3)) ∧
    ∃ total,
      fanIn (7 / 3)
        (fun _ _ => ⟨0, 0, 0, fun _ => 0, .error (.stdException "timeout"), 0, 0, 0, 5⟩)
        [2, 0, 1] = .ok total ∧ total.length = 3 * (7 / 3) :=
  ⟨⟨by decide, by decide⟩,
    (combined_set_size 7 3 (by decide) _ [2, 0, 1] (by decide)).2.1 (fun _ _ _ _ => by simp)⟩

/-- C5: for every `n`, `baseline_latencies(n)` sends exactly `256 + n` requests
and returns exactly `n` samples, never `n + 256`: no warm-up request contributes
a sample, and the `i`-th element of the result is the sample of the `i`-th
measured request, in the order of issue.  It returns when every object thrown by
the cache is a `std::exception`. -/
theorem warmup_is_not_sampled (n : Nat) (env : Nat → RequestEnv) :
    (∀ s, baseline_latencies n env = .ok s →
      s.trace.length = 256 + n ∧
      s.durations.length = n ∧
      s.durations.length ≠ n + 256 ∧
      (∀ k, k < 256 + n →
        ∃ sent, s.trace.get? k = some sent ∧
          Workload.benchmark_request (env k) = (sent.1, .ok sent.2)) ∧
      (∀ i, i < n → s.durations.get? i = some (time (env (256 + i))))) ∧
    ((∀ k, k < 256 + n → (env k).call ≠ .error .other) →
      ∃ s, baseline_latencies n env = .ok s) := by
  constructor
  · intro s hs
    by_cases hc : contained n env
    · rw [baseline_latencies_ok n env hc] at hs
      cases hs
      refine ⟨by simp, by simp, by simp, ?_, ?_⟩
      · intro k hk
        refine ⟨Workload.outcome (env k), by simp [List.getElem?_range hk], ?_⟩
        have hesc := (contained_iff n env).mp hc k hk
        have hres := benchmark_request_result (env k)
        rw [hesc] at hres
        exact Prod.ext rfl hres
      · intro i hi
        simp [List.getElem?_range hi]
    · rw [baseline_latencies_escapes n env hc] at hs
      cases hs
  · intro hc
    exact ⟨_, baseline_latencies_ok n env hc⟩

/-- C5 for two measured requests: the samples are the times of requests 256 and
257 of the thread. -/
theorem warmup_is_not_sampled_witness :
    ∃ s, baseline_latencies 2
        (fun k => ⟨0, 0, 0, fun _ => 0, .ok true, 0, 0, 0, 1000000 * (k : Int)⟩) = .ok s ∧
      s.trace.length = 258 ∧ s.durations = [256, 257] := by
  obtain ⟨hprop, hret⟩ := warmup_is_not_sampled 2
    (fun k => ⟨0, 0, 0, fun _ => 0, .ok true, 0, 0, 0, 1000000 * (k : Int)⟩)
  obtain ⟨s, hs⟩ := hret (fun _ _ => by simp)
  obtain ⟨ht, hd, _, _, hi⟩ := hprop s hs
  refine ⟨s, hs, ht, ?_⟩
  have h0 := hi 0 (by decide)
  have h1 := hi 1 (by decide)
  apply List.ext_get?
  intro i
  match i with
  | 0 => rw [h0]; norm_num [time]
  | 1 => rw [h1]; norm_num [time]
  | i + 2 =>
    rw [List.get?_eq_none.mpr (by omega)]
    rfl

/-- C7 as stated fails: an object thrown by the cache that is not a
`std::exception` is taken by no handler and leaves each of the three executors. -/
theorem executors_let_other_objects_through :
    Workload.get "7" (.error .other) 100 140 = .error .other ∧
    Workload.set "7" "Ab" (.error .other) 100 140 = .error .other ∧
    Workload.del "7" (.error .other) 100 140 = .error .other ∧
    Workload.get "7" (.error .other) 100 140 ≠ .ok (-1) := by
  refine ⟨rfl, rfl, rfl, ?_⟩
  intro h
  cases h

/-- C7, amended: each of the executors `Workload::get`, `Workload::set` and
`Workload::del` returns the sentinel `-1` when the call to the cache throws an
exception derived from `std::exception`, without passing it on; an object of
any other type leaves the executor; when the call returns the executor returns
`end - start` of the steady clock readings, which is not negative when the clock
did not go back. -/
theorem executors_contain_failures (key data : String) (call : Except Thrown Bool)
    (start stop : Int) :
    ((∃ what, call = .error (.stdException what)) →
      Workload.get key call start stop = .ok (-1) ∧
      Workload.set key data call start stop = .ok (-1) ∧
      Workload.del key call start stop = .ok (-1)) ∧
    (call = .error .other →
      Workload.get key call start stop = .error .other ∧
      Workload.set key data call start stop = .error .other ∧
      Workload.del key call start stop = .error .other) ∧
    ((∃ ret, call = .ok ret) →
      Workload.get key call start stop = .ok (stop - start) ∧
      Workload.set key data call start stop = .ok (stop - start) ∧
      Workload.del key call start stop = .ok (stop - start) ∧
      (start ≤ stop → 0 ≤ stop - start)) := by
  refine ⟨?_, ?_, ?_⟩
  · rintro ⟨what, rfl⟩
    exact ⟨rfl, rfl, rfl⟩
  · rintro rfl
    exact ⟨rfl, rfl, rfl⟩
  · rintro ⟨ret, rfl⟩
    exact ⟨rfl, rfl, rfl, fun h => by omega⟩

/-- C7, amended, at a call that throws a `std::exception`, at a call that
returns after 40 ticks and at a call that throws another object. -/
theorem executors_contain_failures_witness :
    (Workload.get "7" (.error (.stdException "timeout")) 100 140 = .ok (-1) ∧
      Workload.set "7" "Ab" (.error (.stdException "timeout")) 100 140 = .ok (-1) ∧
      Workload.del "7" (.error (.stdException "timeout")) 100 140 = .ok (-1)) ∧
    (Workload.get "7" (.ok true) 100 140 = .ok (140 - 100) ∧
      Workload.set "7" "Ab" (.ok true) 100 140 = .ok (140 - 100) ∧
      Workload.del "7" (.ok true) 100 140 = .ok (140 - 100) ∧
      ((100 : Int) ≤ 140 → (0 : Int) ≤ 140 - 100)) ∧
    (Workload.get "7" (.error .other) 100 140 = .error .other ∧
      Workload.set "7" "Ab" (.error .other) 100 140 = .error .other ∧
      Workload.del "7" (.error .other) 100 140 = .error .other) :=
  ⟨(executors_contain_failures "7" "Ab" (.error (.stdException "timeout")) 100 140).1 ⟨_, rfl⟩,
    (executors_contain_failures "7" "Ab" (.ok true) 100 140).2.2 ⟨_, rfl⟩,
    (executors_contain_failures "7" "Ab" (.error .other) 100 140).2.1 rfl⟩

/-- C6 as stated fails: when every call to the cache throws a `std::exception`,
the executor returns `-1` but the sample that `baseline_latencies` records is the
time of the outer clock, here 1000 ticks, that is 1/1000 of a millisecond; and
when a call throws an object that is not a `std::exception`, that object leaves
the sampler. -/
theorem sample_is_not_the_sentinel :
    ((∀ k : Nat, ∃ what, ((fun _ => throwing) k).call = .error (.stdException what)) ∧
      ∃ s, baseline_latencies 1 (fun _ => throwing) = .ok s ∧
        (∀ sent ∈ s.trace, sent.2 = -1) ∧
        s.durations = [1 / 1000] ∧
        ¬ (∀ x ∈ s.durations, x = -1)) ∧
    baseline_latencies 1 (fun _ => escaping) = .error .other := by
  refine ⟨⟨fun _ => ⟨_, rfl⟩, _,
    baseline_latencies_ok 1 _ (fun _ _ => by simp [throwing]), ?_, ?_, ?_⟩, ?_⟩
  · intro sent hsent
    simp only [List.mem_map] at hsent
    obtain ⟨k, _, rfl⟩ := hsent
    rfl
  · norm_num [time, throwing]
  · norm_num [time, throwing]
  · apply baseline_latencies_escapes
    intro hc
    exact hc 0 (by omega) rfl

/-- C6, amended: if every call to the cache throws an exception derived from
`std::exception`, `baseline_latencies(n)` still returns exactly `n` samples and
no exception leaves it; every call of `benchmark_request` returns the sentinel
`-1`, which the sampler drops: the `i`-th sample is the time the outer clock
measured around the `i`-th measured request, not negative when that clock did not
go back.  An object thrown that is not a `std::exception` leaves the sampler. -/
theorem failures_are_contained (n : Nat) (env : Nat → RequestEnv)
    (hthrow : ∀ k, ∃ what, (env k).call = .error (.stdException what)) :
    (∃ s, baseline_latencies n env = .ok s ∧
      s.durations.length = n ∧
      (∀ sent ∈ s.trace, sent.2 = -1) ∧
      (∀ i, i < n → s.durations.get? i = some (time (env (256 + i)))) ∧
      ((∀ k, (env k).outerStart ≤ (env k).outerEnd) → ∀ x ∈ s.durations, 0 ≤ x)) ∧
    (∀ other : Nat → RequestEnv, (∃ k, k < 256 + n ∧ (other k).call = .error .other) →
      baseline_latencies n other = .error .other) := by
  have hc : contained n env := by
    intro k _ hk
    obtain ⟨what, hw⟩ := hthrow k
    rw [hw] at hk
    cases hk
  refine ⟨⟨_, baseline_latencies_ok n env hc, ?_, ?_, ?_, ?_⟩, ?_⟩
  · simp
  · intro sent hsent
    simp only [List.mem_map] at hsent
    obtain ⟨k, _, rfl⟩ := hsent
    obtain ⟨what, hw⟩ := hthrow k
    show elapsed (env k).call _ _ = -1
    rw [hw]
    rfl
  · intro i hi
    simp [List.getElem?_range hi]
  · intro hclock x hx
    simp only [List.mem_map] at hx
    obtain ⟨i, _, rfl⟩ := hx
    have h := hclock (256 + i)
    have hq : (0 : ℚ) ≤ (((env (256 + i)).outerEnd - (env (256 + i)).outerStart : Int) : ℚ) := by
      exact_mod_cast sub_nonneg.mpr h
    unfold time
    positivity
  · rintro other ⟨k, hk, hesc⟩
    apply baseline_latencies_escapes
    intro hco
    exact hco k hk hesc

/-- C6, amended, for three measured requests whose calls all throw a
`std::exception`. -/
theorem failures_are_contained_witness :
    (∀ k : Nat, ∃ what, ((fun _ => throwing) k).call = .error (.stdException what)) ∧
    ∃ s, baseline_latencies 3 (fun _ => throwing) = .ok s ∧
      s.durations.length = 3 ∧ (∀ sent ∈ s.trace, sent.2 = -1) ∧
      s.durations.get? 2 = some (1 / 1000) := by
  refine ⟨fun _ => ⟨_, rfl⟩, ?_⟩
  obtain ⟨⟨s, hs, hlen, hsent, hi, _⟩, _⟩ :=
    failures_are_contained 3 (fun _ => throwing) (fun _ => ⟨_, rfl⟩)
  refine ⟨s, hs, hlen, hsent, ?_⟩
  rw [hi 2 (by decide)]
  norm_num [time, throwing]

/-- C8 as stated fails: for the drawn value `-1.5` the key is `-1`, with a minus
sign, and not the decimal string `1` of the truncated absolute value. -/
theorem key_with_minus_sign :
    (Workload.benchmark_request negativeKey).1.key = "-1" ∧
    Nat.repr (truncate |negativeKey.keyDraw|).toNat = "1" ∧
    (Workload.benchmark_request negativeKey).1.key ≠
      Nat.repr (truncate |negativeKey.keyDraw|).toNat ∧
    (Workload.benchmark_request negativeKey).1.key.data.head? = some '-' := by
  have hdraw : negativeKey.keyDraw = -3 / 2 := rfl
  have habs : |(-3 / 2 : ℚ)| = 3 / 2 := by norm_num [abs_of_neg]
  have hceil : Int.ceil (-3 / 2 : ℚ) = -1 := by
    rw [Int.ceil_eq_iff]
    norm_num
  have hfloor : Int.floor (3 / 2 : ℚ) = 1 := by
    rw [Int.floor_eq_iff]
    norm_num
  have ht : truncate (-3 / 2 : ℚ) = -1 := by
    unfold truncate
    rw [if_neg (by norm_num), hceil]
  have hta : truncate (3 / 2 : ℚ) = 1 := by
    unfold truncate
    rw [if_pos (by norm_num), hfloor]
  have hkey : (Workload.benchmark_request negativeKey).1.key = "-1" := by
    rw [key_of_request, hdraw, ht]
    decide
  refine ⟨hkey, ?_, ?_, ?_⟩
  · rw [hdraw, habs, hta]
    decide
  · rw [hkey, hdraw, habs, hta]
    decide
  · rw [hkey]
    decide

/-- C8, amended: the key that `benchmark_request` passes to `get`, `set` or `del`
is the decimal string of the drawn value truncated to a signed integer, no
absolute value being taken.  For a drawn value above `-1` it is the decimal
string of the truncated absolute value and has no minus sign; for a drawn value
of `-1` or less it is that string behind a minus sign. -/
theorem key_is_signed_truncation (e : RequestEnv) :
    (Workload.benchmark_request e).1.key = to_string (truncate e.keyDraw) ∧
    (-1 < e.keyDraw →
      (Workload.benchmark_request e).1.key = Nat.repr (truncate |e.keyDraw|).toNat ∧
      (Workload.benchmark_request e).1.key.data.head? ≠ some '-') ∧
    (e.keyDraw ≤ -1 →
      (Workload.benchmark_request e).1.key = "-" ++ Nat.repr (truncate |e.keyDraw|).toNat ∧
      (Workload.benchmark_request e).1.key.data.head? = some '-') := by
  refine ⟨key_of_request e, ?_, ?_⟩
  · intro h
    have hnn : ¬ truncate e.keyDraw < 0 := by
      rw [truncate_neg_iff]
      exact not_le.mpr h
    have hkey : (Workload.benchmark_request e).1.key =
        Nat.repr (truncate |e.keyDraw|).toNat := by
      rw [key_of_request, to_string, if_neg hnn, natAbs_truncate]
    exact ⟨hkey, by rw [hkey]; exact repr_head_ne_minus _⟩
  · intro h
    have hneg : truncate e.keyDraw < 0 := (truncate_neg_iff _).mpr h
    have hkey : (Workload.benchmark_request e).1.key =
        "-" ++ Nat.repr (truncate |e.keyDraw|).toNat := by
      rw [key_of_request, to_string, if_pos hneg, natAbs_truncate]
    refine ⟨hkey, ?_⟩
    rw [hkey, String.data_append]
    rfl

/-- C8, amended, at the drawn values `-1.5` and `0`. -/
theorem key_is_signed_truncation_witness :
    (Workload.benchmark_request negativeKey).1.key.data.head? = some '-' ∧
    (Workload.benchmark_request throwing).1.key.data.head? ≠ some '-' :=
  ⟨((key_is_signed_truncation negativeKey).2.2 (by norm_num [negativeKey])).2,
    ((key_is_signed_truncation throwing).2.1 (by norm_num [throwing])).2⟩

/-! ## The statistics at concrete sets -/

/-- The values `3, 1, 2, 1` in ascending order. -/
theorem sort_example : sort [3, 1, 2, 1] = [1, 1, 2, 3] := by
  norm_num [sort]

/-- C2 at the set `3, 1, 2, 1`: index 3 of `1, 1, 2, 3`, the value 3. -/
theorem p95_is_element_at_nineFive_witness :
    ([3, 1, 2, 1] : List ℚ) ≠ [] ∧
    ∃ r, statistics [3, 1, 2, 1] = .ok r ∧ r.first = 3 := by
  refine ⟨by simp, ?_⟩
  obtain ⟨⟨r, hr, _, _, hs⟩, _⟩ := p95_is_element_at_nineFive [3, 1, 2, 1] (by simp)
  refine ⟨r, hr, ?_⟩
  have hsorted : ([1, 1, 2, 3] : List ℚ).Sorted (· ≤ ·) := by
    rw [← sort_example]
    exact sorted_sort _
  have hperm : ([1, 1, 2, 3] : List ℚ).Perm [3, 1, 2, 1] := by
    rw [← sort_example]
    exact perm_sort _
  have h := hs [1, 1, 2, 3] hsorted hperm
  rw [ceil_nineFive] at h
  simp at h
  exact h.symm

/-- C4 at the sets `3, 1, 2, 1` and `1, 1, 2, 3`. -/
theorem statistics_of_multiset_witness :
    statistics [1, 1, 2, 3] = statistics [3, 1, 2, 1] :=
  (statistics_of_multiset [1, 1, 2, 3] [3, 1, 2, 1]
    (by rw [← sort_example]; exact perm_sort _)).1

/-- C10 at the set `3, 1, 2, 1`. -/
theorem p95_splits_the_samples_witness :
    ([3, 1, 2, 1] : List ℚ) ≠ [] ∧
    ∃ r, statistics [3, 1, 2, 1] = .ok r ∧ r.first ∈ ([3, 1, 2, 1] : List ℚ) := by
  refine ⟨by simp, ?_⟩
  obtain ⟨r, hr, hmem, _, _, _⟩ := p95_splits_the_samples [3, 1, 2, 1] (by simp)
  exact ⟨r, hr, hmem⟩

end Benchmark
